import Mathlib

/-!
# Verification of the harmony-hacker audio-analysis core

Shallow embedding of the Rust sources of the `harmony-hacker` repository
(`src/main.rs`, `src/audio.rs`, `src/goertzel.rs`, `src/overlap_chunks.rs`,
`src/window_fn.rs`) together with proofs settling the frozen claims about the
natural-language specification.

Modelling conventions:
* `f32` values are modelled as real numbers (`ℝ`).  All instances evaluated in
  counterexamples use values whose `f32` computations are exact, so the move to
  `ℝ` is faithful there.
* `u32`/`usize` arithmetic is modelled with `ℕ`; Rust's truncating cast
  `as usize` of a nonnegative `f32` is the floor of the real value, and integer
  division `/` on `u32` is `Nat` division.  Division by zero panics in Rust;
  the functions that would panic return `none` instead.
* Exact `f32`-expressible constants (`MAX_FREQ = 4186.01`, the UI resolution
  values) are carried in `ℚ` where the code only does comparisons, casts and
  exact divisions.
* Decoded audio blocks, container packets and the external FFT routine
  (`realfft`) are abstracted as data (`AudioBlock`, `Packet`) or as a function
  parameter (`r2c`); the repository code that drives them is translated
  statement by statement.
-/

/-! ## goertzel.rs -/

/-- State of the stateful Goertzel filter (`goertzel.rs`, `struct Goertzel`). -/
structure Goertzel where
  q0 : ℝ
  q1 : ℝ
  q2 : ℝ
  coeff : ℝ

/-- `Goertzel::new` (`goertzel.rs:82-93`): precomputes
`coeff = 2 * cos(2*pi*(target_frequency/sample_rate))`, zero state. -/
noncomputable def Goertzel.new (sample_rate : ℕ) (target_frequency : ℝ) : Goertzel :=
  let k := target_frequency / (sample_rate : ℝ)
  let w := 2 * Real.pi * k
  let coeff := 2 * Real.cos w
  { q0 := 0, q1 := 0, q2 := 0, coeff := coeff }

/-- `Goertzel::process` (`goertzel.rs:97-101`):
`q0 = sample + coeff*q1 - q2; q2 = q1; q1 = q0`. -/
def Goertzel.process (g : Goertzel) (sample : ℝ) : Goertzel :=
  let q0 := sample + g.coeff * g.q1 - g.q2
  { q0 := q0, q1 := q0, q2 := g.q1, coeff := g.coeff }

/-- `Goertzel::magnitude` (`goertzel.rs:104-109`):
`2 * sqrt(q1*q1 + q2*q2 - q1*q2*coeff) / block_size`. -/
noncomputable def Goertzel.magnitude (g : Goertzel) (block_size : ℕ) : ℝ :=
  let magnitude := Real.sqrt (g.q1 * g.q1 + g.q2 * g.q2 - g.q1 * g.q2 * g.coeff)
  2 * magnitude / (block_size : ℝ)

/-- `Goertzel::reset` (`goertzel.rs:112-116`): zeroes `q0, q1, q2`. -/
def Goertzel.reset (g : Goertzel) : Goertzel :=
  { q0 := 0, q1 := 0, q2 := 0, coeff := g.coeff }

/-- The stateless `goertzel` function (`goertzel.rs:23-42`).  The loop-carried
pair is `(q1, q2)`; one iteration maps `(q1, q2)` to
`(sample + coeff*q1 - q2, q1)`. -/
noncomputable def goertzel (samples : List ℝ) (sample_rate : ℕ)
    (target_frequency : ℝ) : ℝ :=
  let k := target_frequency / (sample_rate : ℝ)
  let w := 2 * Real.pi * k
  let coeff := 2 * Real.cos w
  let qs := samples.foldl (fun (q : ℝ × ℝ) sample =>
    (sample + coeff * q.1 - q.2, q.1)) (0, 0)
  let magnitude := Real.sqrt (qs.1 * qs.1 + qs.2 * qs.2 - qs.1 * qs.2 * coeff)
  2 * magnitude / (samples.length : ℝ)

/-- Running the stateful filter over a list of samples, calling `process` once
per sample in order (the usage pattern of `build_spectrum_goertzel` and of the
doc examples in `goertzel.rs`). -/
def Goertzel.processAll (g : Goertzel) (samples : List ℝ) : Goertzel :=
  samples.foldl (fun g s => g.process s) g

/-! ## window_fn.rs -/

/-- `hann` (`window_fn.rs:3-26`).  The first `(sample_count+1)/2` weights are
computed with the cosine formula; the remaining positions `i` copy
`window[sample_count - i - 1]`, which always lands in the computed half. -/
noncomputable def hann (sample_count : ℕ) : List ℝ :=
  if sample_count = 0 then []
  else if sample_count = 1 then [0]
  else
    let scale : ℝ := 2 * Real.pi / ((sample_count - 1 : ℕ) : ℝ)
    let halfsize := (sample_count + 1) / 2
    let firstHalf := (List.range halfsize).map
      (fun (i : ℕ) => 0.5 - 0.5 * Real.cos (scale * (i : ℝ)))
    firstHalf ++ (List.range (sample_count - halfsize)).map
      (fun i => firstHalf.getD (sample_count - (halfsize + i) - 1) 0)

/-! ## main.rs: data model -/

/-- `FftSource` (`main.rs:253-258`). -/
structure FftSource where
  name : String
  sample_rate : ℕ
  data : List ℝ

/-- `Algorithm` (`main.rs:270-274`). -/
inductive Algorithm where
  | Fft
  | Goertzel

/-- `FftConfig` (`main.rs:276-281`).  `resolution_hz` is an `f32` driven by a
slider over `1.0..=50.0`; modelled in `ℚ`. -/
structure FftConfig where
  resolution_hz : ℚ
  duration_sec : ℕ
  algorithm : Algorithm

/-- A bevy `Image` reduced to the fields the builders fill: its extent and its
byte buffer (`R8Unorm`, one `u8` per pixel, row-major). -/
structure Image where
  width : ℕ
  height : ℕ
  data : List ℕ

/-- `MAX_FREQ = 4186.01` (`main.rs:41`), exactly representable intent carried
in `ℚ`. -/
def MAX_FREQ : ℚ := 418601 / 100

/-- The analysis window size, computed identically at `main.rs:396` and
`main.rs:455`: `(source.sample_rate as f32 / config.resolution_hz) as usize`.
The `as usize` cast truncates toward zero, i.e. takes the floor of the
nonnegative quotient. -/
def windowSize (sample_rate : ℕ) (resolution_hz : ℚ) : ℕ :=
  ⌊(sample_rate : ℚ) / resolution_hz⌋.toNat

/-- Rust's saturating `as u8` cast from a nonnegative-or-negative `f32`:
negative values clamp to `0`, values at least `255` clamp to `255`, otherwise
the value is truncated. -/
noncomputable def f32AsU8 (x : ℝ) : ℕ :=
  min 255 (⌊x⌋).toNat

/-- Per-bin quantization of the FFT path (`main.rs:439-442`):
`s = norm; s = s.max(1e-10); s = (s.log10() / 3.0).min(1.0); (s * 255.0) as u8`. -/
noncomputable def quantizeFft (value : ℂ) : ℕ :=
  let s := Complex.abs value
  let s := max s 1e-10
  let s := min (Real.logb 10 s / 3) 1
  f32AsU8 (s * 255)

/-- Per-key quantization of the Goertzel path (`main.rs:494-495`):
`(s.sqrt() * 255.0) as u8`. -/
noncomputable def quantizeGoertzel (s : ℝ) : ℕ :=
  f32AsU8 (Real.sqrt s * 255)

/-- Piano key frequency (`main.rs:480-481`):
`440.0 * 2.0f64.powf((key as f64 - 48.0) / 12.0) as f32`. -/
noncomputable def keyFrequency (key : ℕ) : ℝ :=
  440 * (2 : ℝ) ^ (((key : ℝ) - 48) / 12)

/-- Rust `slice::chunks(n)`: non-overlapping chunks of `n` elements, the last
chunk being the (possibly shorter) remainder; the empty slice yields no
chunks.  Used at `main.rs:484`. -/
def listChunks (l : List α) (n : ℕ) : List (List α) :=
  if l.isEmpty then []
  else if h : n = 0 then []
  else l.take n :: listChunks (l.drop n) n
termination_by l.length
decreasing_by
  simp only [List.length_drop]
  rcases l with _ | ⟨a, l⟩
  · simp at *
  · simp
    omega

/-- `build_spectrum_fft` (`main.rs:395-451`).  The external `realfft` forward
transform is abstracted as the parameter `r2c`, mapping one window of samples
to the complex output vector.  A zero window size panics in the Rust code
(`spectrum_rows` divides by `fft_window_size`), modelled as `none`.  The row
loop breaks at the first row whose window is not fully contained in the data
(`main.rs:430-432`), modelled with `takeWhile`; the buffer is then resized to
its capacity `width * height` with zero fill (`main.rs:448`). -/
noncomputable def build_spectrum_fft (r2c : List ℝ → List ℂ)
    (source : FftSource) (config : FftConfig) : Option Image :=
  let fft_window_size := windowSize source.sample_rate config.resolution_hz
  if fft_window_size = 0 then none
  else
    let bins_to_take :=
      1 + ⌊(MAX_FREQ / (source.sample_rate : ℚ)) * (fft_window_size : ℚ)⌋.toNat
    let spectrum_rows := source.sample_rate * config.duration_sec / fft_window_size
    let rows := (List.range spectrum_rows).takeWhile
      (fun row => decide (row * fft_window_size + fft_window_size ≤ source.data.length))
    let body := (rows.map (fun row =>
      ((r2c ((source.data.drop (row * fft_window_size)).take fft_window_size)).take
        bins_to_take).map quantizeFft)).flatten
    some { width := bins_to_take, height := spectrum_rows,
           data := body ++ List.replicate (bins_to_take * spectrum_rows - body.length) 0 }

/-- One loop iteration of `build_spectrum_goertzel` over a chunk
(`main.rs:484-504`): every sample of the chunk is processed by every filter,
then two zero pixels, three pixels per key magnitude, and three trailing zero
pixels are pushed, and every filter is reset. -/
noncomputable def goertzelRowStep (window_size : ℕ)
    (acc : List ℕ × List Goertzel) (chunk : List ℝ) : List ℕ × List Goertzel :=
  let states := chunk.foldl (fun sts sample => sts.map (fun g => g.process sample)) acc.2
  let row := [0, 0] ++
    (states.map (fun g => List.replicate 3 (quantizeGoertzel (g.magnitude window_size)))).flatten
    ++ [0, 0, 0]
  (acc.1 ++ row, states.map Goertzel.reset)

/-- `build_spectrum_goertzel` (`main.rs:453-510`).  A zero window size panics
in the Rust code (`spectrum_rows` divides by `window_size`), modelled as
`none`.  Note that `source.data.chunks(window_size)` includes the final
partial chunk, so the last produced row may come from a window that is not
fully covered by the samples.  The buffer is resized to its capacity
`width * height` with zero fill (`main.rs:507`). -/
noncomputable def build_spectrum_goertzel (source : FftSource)
    (config : FftConfig) : Option Image :=
  let window_size := windowSize source.sample_rate config.resolution_hz
  if window_size = 0 then none
  else
    let spectrum_rows := source.sample_rate * config.duration_sec / window_size
    let width := 88 * 3 + 5
    let key_states := (List.range 88).map
      (fun key => Goertzel.new source.sample_rate (keyFrequency key))
    let body := (((listChunks source.data window_size).take spectrum_rows).foldl
      (goertzelRowStep window_size) ([], key_states)).1
    some { width := width, height := spectrum_rows,
           data := body ++ List.replicate (width * spectrum_rows - body.length) 0 }

/-! ## main.rs: file_drop accumulation (`main.rs:296-344`) -/

/-- One block yielded by `Decoder::decode`, reduced to what `file_drop`
inspects: whether the sample format is f32, and if so the channel-0 samples
(`audio_buf.chan(0)`, whose length is `audio_buf.frames()`). -/
inductive AudioBlock where
  | f32 (chan0 : List ℝ)
  | unsupported

/-- The accumulation loop of `file_drop` (`main.rs:322-334`).  Returns the
accumulated samples and whether the `UpdateSpectrum` event is sent afterwards:
a non-f32 block logs an error and returns early (no event, `main.rs:323-327`);
a block that would push the buffer past `samples_to_take` breaks out of the
loop (the block is dropped, the event is still sent); otherwise channel 0 is
appended and the loop continues. -/
def accumLoop (samples_to_take : ℕ) (data : List ℝ) :
    List AudioBlock → List ℝ × Bool
  | [] => (data, true)
  | AudioBlock.unsupported :: _ => (data, false)
  | AudioBlock.f32 chan0 :: rest =>
    if samples_to_take < data.length + chan0.length then (data, true)
    else accumLoop samples_to_take (data ++ chan0) rest

/-- The successful-decoder branch of `file_drop` (`main.rs:308-337`): the
source name and sample rate are overwritten, the sample buffer is cleared,
the cap is `sample_rate * 120`, then the accumulation loop runs.  Returns the
new `FftSource` and whether `UpdateSpectrum` was sent.  (The function itself
returns no error value; the `Err` return for a bad sample format is commented
out in the source, `main.rs:324`.) -/
def file_drop (source : FftSource) (file_name : String) (sample_rate : ℕ)
    (blocks : List AudioBlock) : FftSource × Bool :=
  let samples_to_take := sample_rate * 120
  let result := accumLoop samples_to_take [] blocks
  ({ name := file_name, sample_rate := sample_rate, data := result.1 }, result.2)

/-- The channel-0 samples a block contributes when accepted. -/
def chanData : AudioBlock → List ℝ
  | AudioBlock.f32 c => c
  | AudioBlock.unsupported => []

/-! ## audio.rs: Decoder::decode (`audio.rs:64-83`) -/

/-- A container packet as seen by the decode loop: its track id and what the
codec's `decode` produces for it — `some` block on success, `none` on a decode
error (which is logged and skipped). -/
structure Packet (β : Type) where
  track_id : ℕ
  payload : Option β

/-- `Decoder::decode` (`audio.rs:64-83`): pull packets until one decodes.
`next_packet` failing (end of stream or hard I/O error) is modelled by the
packet list being exhausted and yields `none`; packets of other tracks are
silently discarded; a packet that fails to decode is logged and skipped. -/
def decodeNext (track_id : ℕ) : List (Packet β) → Option (β × List (Packet β))
  | [] => none
  | p :: rest =>
    if p.track_id ≠ track_id then decodeNext track_id rest
    else
      match p.payload with
      | none => decodeNext track_id rest
      | some b => some (b, rest)

/-- Repeatedly calling `decode` until it returns `None` (the pull loop of
`file_drop`), collecting every surfaced block in order. -/
def decodeAll (track_id : ℕ) (ps : List (Packet β)) : List β :=
  match h : decodeNext track_id ps with
  | none => []
  | some (b, rest) => b :: decodeAll track_id rest
termination_by ps.length
decreasing_by
  have aux : ∀ (qs : List (Packet β)) (b2 : β) (rest2 : List (Packet β)),
      decodeNext track_id qs = some (b2, rest2) → rest2.length < qs.length := by
    intro qs
    induction qs with
    | nil => intro b2 rest2 hq; simp [decodeNext] at hq
    | cons p tl ih =>
      intro b2 rest2 hq
      simp only [decodeNext] at hq
      by_cases hp : p.track_id ≠ track_id
      · rw [if_pos hp] at hq
        exact Nat.lt_succ_of_lt (ih _ _ hq)
      · rw [if_neg hp] at hq
        cases hpay : p.payload with
        | none =>
          rw [hpay] at hq
          exact Nat.lt_succ_of_lt (ih _ _ hq)
        | some b0 =>
          rw [hpay] at hq
          simp only [Option.some.injEq, Prod.mk.injEq] at hq
          rw [← hq.2]
          simp
  exact aux ps b rest h

/-! ## overlap_chunks.rs -/

/-- The loop of `OverlapChunks::next` (`overlap_chunks.rs:39-51`), iterated to
exhaustion: an empty slice ends iteration; a slice of at most `chunk_size`
elements is yielded whole and ends iteration; otherwise the first `chunk_size`
elements are yielded and the slice advances by `step = chunk_size - overlap`
(the `next_chunk_offset` computed in `OverlapChunks::new`). -/
def chunksGo (chunk_size step : ℕ) (hstep : 0 < step) (v : List α) :
    List (List α) :=
  if v.isEmpty then []
  else if v.length ≤ chunk_size then [v]
  else v.take chunk_size :: chunksGo chunk_size step hstep (v.drop step)
termination_by v.length
decreasing_by
  simp only [List.length_drop]
  rcases v with _ | ⟨a, v⟩
  · simp at *
  · simp
    omega

/-- `overlap_chunks` (`overlap_chunks.rs:97-103`): asserts
`overlap < chunk_size` (a panic, modelled as `none`), then iterates the
`OverlapChunks` iterator built by `OverlapChunks::new`. -/
def overlap_chunks (v : List α) (chunk_size overlap : ℕ) :
    Option (List (List α)) :=
  if h : overlap < chunk_size then
    some (chunksGo chunk_size (chunk_size - overlap) (by omega) v)
  else none

/-- Concatenation-with-deduplication of a chunk list: the first chunk whole,
every subsequent chunk with its first `overlap` elements (shared with the
previous chunk) removed. -/
def dedupConcat (overlap : ℕ) : List (List α) → List α
  | [] => []
  | c :: rest => c ++ (rest.map (fun chunk => chunk.drop overlap)).flatten

/-! ## Spec-side definition for the window-size refinement claim -/

/-- Modelled from the spec: `window_size = round(sample_rate / resolution_hz)`,
the quotient rounded to the nearest integer (spec §3 SpectrogramConfig and
§4.5), to be compared against the source's `windowSize`. -/
def specRoundWindowSize (sample_rate : ℕ) (resolution_hz : ℚ) : ℕ :=
  (round ((sample_rate : ℚ) / resolution_hz)).toNat

/-! ## Theorems: Goertzel filter (claims C5, C9) -/

theorem Goertzel.processAll_spec (samples : List ℝ) :
    ∀ g : Goertzel,
      (g.processAll samples).coeff = g.coeff ∧
      ((g.processAll samples).q1, (g.processAll samples).q2) =
        samples.foldl (fun (q : ℝ × ℝ) sample =>
          (sample + g.coeff * q.1 - q.2, q.1)) (g.q1, g.q2) := by
  induction samples with
  | nil => intro g; exact ⟨rfl, rfl⟩
  | cons s rest ih => intro g; exact ih (g.process s)

theorem Goertzel.processAll_zero_state (N : ℕ) :
    ∀ g : Goertzel, g.q1 = 0 → g.q2 = 0 →
      (g.processAll (List.replicate N 0)).q1 = 0 ∧
      (g.processAll (List.replicate N 0)).q2 = 0 := by
  induction N with
  | zero => intro g h1 h2; exact ⟨h1, h2⟩
  | succ n ih =>
    intro g h1 h2
    rw [List.replicate_succ]
    have hstep : g.processAll (0 :: List.replicate n 0) =
        (g.process 0).processAll (List.replicate n 0) := rfl
    rw [hstep]
    apply ih
    · show 0 + g.coeff * g.q1 - g.q2 = 0
      rw [h1, h2]; ring
    · exact h1

theorem goertzel_zero_fold (c : ℝ) (N : ℕ) :
    (List.replicate N (0 : ℝ)).foldl (fun (q : ℝ × ℝ) sample =>
      (sample + c * q.1 - q.2, q.1)) (0, 0) = (0, 0) := by
  induction N with
  | zero => rfl
  | succ n ih =>
    rw [List.replicate_succ, List.foldl_cons]
    simpa using ih

/-- C5: for every `sample_rate`, `target_frequency` and finite non-empty sample
sequence, constructing a stateful `Goertzel`, calling `process` once per sample
in order, and reading `magnitude(N)` yields the same value as the stateless
single-call `goertzel` on the same samples — here proved as exact equality in
the real-valued model (hence within any floating tolerance). -/
theorem c5_stateful_stateless_agreement (sample_rate : ℕ) (target_frequency : ℝ)
    (samples : List ℝ) (hne : samples ≠ []) :
    ((Goertzel.new sample_rate target_frequency).processAll samples).magnitude
      samples.length = goertzel samples sample_rate target_frequency := by
  clear hne
  obtain ⟨hc, hq⟩ :=
    Goertzel.processAll_spec samples (Goertzel.new sample_rate target_frequency)
  have h1 := congrArg Prod.fst hq
  have h2 := congrArg Prod.snd hq
  simp only at h1 h2
  unfold Goertzel.magnitude
  rw [h1, h2, hc]
  rfl

/-- C9: for every block size `N ≥ 1`, a silent (all-zero) block of `N` samples
gives magnitude exactly `0` both through the stateful filter and through the
stateless `goertzel` (in the real-valued model the computation is exact: the
state stays zero, and `2 * sqrt 0 / N = 0`, never an undefined value). -/
theorem c9_silent_block_zero_magnitude (N sample_rate : ℕ) (target_frequency : ℝ)
    (hN : 1 ≤ N) :
    ((Goertzel.new sample_rate target_frequency).processAll
        (List.replicate N 0)).magnitude N = 0 ∧
    goertzel (List.replicate N 0) sample_rate target_frequency = 0 := by
  clear hN
  obtain ⟨h1, h2⟩ := Goertzel.processAll_zero_state N
    (Goertzel.new sample_rate target_frequency) rfl rfl
  constructor
  · unfold Goertzel.magnitude
    rw [h1, h2]
    simp
  · simp only [goertzel]
    rw [goertzel_zero_fold]
    simp

theorem c5_witness :
    ((Goertzel.new 2 1).processAll [1, 2]).magnitude 2 = goertzel [1, 2] 2 1 :=
  c5_stateful_stateless_agreement 2 1 [1, 2] (by simp)

theorem c9_witness :
    ((Goertzel.new 48000 440).processAll (List.replicate 3 0)).magnitude 3 = 0 ∧
    goertzel (List.replicate 3 0) 48000 440 = 0 :=
  c9_silent_block_zero_magnitude 3 48000 440 (by norm_num)

/-! ## Theorems: window size (claim C3) -/

/-- C3 counterexample: the claim says both builders use
`window_size = round(sample_rate / resolution_hz)`; at `sample_rate = 3`,
`resolution_hz = 2` (quotient `1.5`, exactly representable in `f32`) the code's
`as usize` truncation yields `1` while rounding to the nearest integer yields
`2`. -/
theorem c3_counterexample :
    windowSize 3 2 = 1 ∧ specRoundWindowSize 3 2 = 2 ∧
    windowSize 3 2 ≠ specRoundWindowSize 3 2 := by
  have h1 : windowSize 3 2 = 1 := by
    unfold windowSize
    push_cast
    rw [show ⌊(3 : ℚ) / 2⌋ = 1 by norm_num]
    rfl
  have h2 : specRoundWindowSize 3 2 = 2 := by
    unfold specRoundWindowSize
    push_cast
    rw [show round ((3 : ℚ) / 2) = 2 by rw [round_eq]; norm_num]
    rfl
  exact ⟨h1, h2, by rw [h1, h2]; omega⟩

/-- C3 (amended): both builders derive the analysis window size with the same
expression `(sample_rate as f32 / resolution_hz) as usize`, which truncates the
quotient (floor for this nonnegative value) rather than rounding it to the
nearest integer: `window_size ≤ sample_rate/resolution_hz <
window_size + 1`, and it is bounded by (but not equal to) the spec's rounded
value. -/
theorem c3_window_size_truncates (sample_rate : ℕ) (resolution_hz : ℚ)
    (hres : 0 < resolution_hz) :
    ((windowSize sample_rate resolution_hz : ℚ) ≤
        (sample_rate : ℚ) / resolution_hz ∧
      (sample_rate : ℚ) / resolution_hz <
        (windowSize sample_rate resolution_hz : ℚ) + 1) ∧
    windowSize sample_rate resolution_hz ≤
      specRoundWindowSize sample_rate resolution_hz := by
  have hx : (0 : ℚ) ≤ (sample_rate : ℚ) / resolution_hz :=
    div_nonneg (by positivity) hres.le
  have hfloor : (0 : ℤ) ≤ ⌊(sample_rate : ℚ) / resolution_hz⌋ :=
    Int.floor_nonneg.mpr hx
  have hcast : ((windowSize sample_rate resolution_hz : ℤ)) =
      ⌊(sample_rate : ℚ) / resolution_hz⌋ := by
    unfold windowSize
    exact Int.toNat_of_nonneg hfloor
  have hcastQ : ((windowSize sample_rate resolution_hz : ℚ)) =
      ((⌊(sample_rate : ℚ) / resolution_hz⌋ : ℤ) : ℚ) := by
    rw [← hcast]
    push_cast
    ring
  refine ⟨⟨?_, ?_⟩, ?_⟩
  · rw [hcastQ]
    exact Int.floor_le _
  · rw [hcastQ]
    exact Int.lt_floor_add_one _
  · have hle : ⌊(sample_rate : ℚ) / resolution_hz⌋ ≤
        round ((sample_rate : ℚ) / resolution_hz) := by
      rw [round_eq]
      exact Int.floor_le_floor (by linarith)
    unfold windowSize specRoundWindowSize
    exact Int.toNat_le_toNat hle

theorem c3_witness :
    (((windowSize 44100 50 : ℚ) ≤ (44100 : ℚ) / 50 ∧
        (44100 : ℚ) / 50 < (windowSize 44100 50 : ℚ) + 1) ∧
      windowSize 44100 50 ≤ specRoundWindowSize 44100 50) :=
  c3_window_size_truncates 44100 50 (by norm_num)

/-! ## Theorems: Hann window (claim C8) -/

theorem getD_map_range (f : ℕ → ℝ) (k i : ℕ) (h : i < k) :
    ((List.range k).map f).getD i 0 = f i := by
  rw [List.getD_eq_getElem ((List.range k).map f) 0 (by simpa using h)]
  simp

theorem hann_length (n : ℕ) (hn : 2 ≤ n) : (hann n).length = n := by
  have h0 : n ≠ 0 := by omega
  have h1 : n ≠ 1 := by omega
  simp only [hann, if_neg h0, if_neg h1]
  simp only [List.length_append, List.length_map, List.length_range]
  omega

theorem hann_getD_lo (n i : ℕ) (hn : 2 ≤ n) (hi : i < (n + 1) / 2) :
    (hann n).getD i 0 =
      0.5 - 0.5 * Real.cos (2 * Real.pi / ((n - 1 : ℕ) : ℝ) * (i : ℝ)) := by
  have h0 : n ≠ 0 := by omega
  have h1 : n ≠ 1 := by omega
  simp only [hann, if_neg h0, if_neg h1]
  rw [List.getD_append _ _ _ _ (by simpa using hi)]
  exact getD_map_range _ _ _ hi

theorem hann_getD_hi (n i : ℕ) (hn : 2 ≤ n) (hlo : (n + 1) / 2 ≤ i) (hhi : i < n) :
    (hann n).getD i 0 =
      0.5 - 0.5 * Real.cos (2 * Real.pi / ((n - 1 : ℕ) : ℝ) *
        ((n - i - 1 : ℕ) : ℝ)) := by
  have h0 : n ≠ 0 := by omega
  have h1 : n ≠ 1 := by omega
  simp only [hann, if_neg h0, if_neg h1]
  rw [List.getD_append_right _ _ _ _ (by simpa using hlo)]
  rw [List.length_map, List.length_range]
  rw [getD_map_range _ _ _ (by omega)]
  rw [show (n + 1) / 2 + (i - (n + 1) / 2) = i by omega]
  exact getD_map_range _ _ _ (by omega)

theorem hann_even_pair_bound (N i : ℕ) (heven : N % 2 = 0) (hi : i < N / 2) :
    |(hann N).getD i 0 + (hann N).getD (i + N / 2) 0 - 1| ≤
      Real.pi / (2 * ((N : ℝ) - 1)) := by
  have h1 : 1 ≤ N / 2 := by omega
  have hn2 : 2 ≤ N := by omega
  have hlo : i < (N + 1) / 2 := by omega
  have hhi1 : (N + 1) / 2 ≤ i + N / 2 := by omega
  have hhi2 : i + N / 2 < N := by omega
  rw [hann_getD_lo N i hn2 hlo, hann_getD_hi N (i + N / 2) hn2 hhi1 hhi2]
  set h := N / 2 with hh
  set s : ℝ := 2 * Real.pi / ((N - 1 : ℕ) : ℝ) with hs
  set m : ℕ := N - (i + h) - 1 with hm
  have hM : ((N - 1 : ℕ) : ℝ) = 2 * (h : ℝ) - 1 := by
    have e : N - 1 = 2 * h - 1 := by omega
    rw [e, Nat.cast_sub (by omega : 1 ≤ 2 * h)]
    push_cast
    ring
  have hhr : (1 : ℝ) ≤ (h : ℝ) := by exact_mod_cast h1
  have hMpos : (0 : ℝ) < ((N - 1 : ℕ) : ℝ) := by rw [hM]; linarith
  have hmcast : (m : ℝ) = (h : ℝ) - 1 - (i : ℝ) := by
    have e : m = h - 1 - i := by omega
    rw [e, Nat.cast_sub (by omega : i ≤ h - 1), Nat.cast_sub h1]
    push_cast
    ring
  have key : (0.5 - 0.5 * Real.cos (s * i)) + (0.5 - 0.5 * Real.cos (s * m)) - 1
      = -((Real.cos (s * i) + Real.cos (s * m)) / 2) := by ring
  rw [key, abs_neg, abs_div, Real.cos_add_cos]
  have hsum : (s * i + s * m) / 2 =
      Real.pi / 2 - Real.pi / (2 * ((N - 1 : ℕ) : ℝ)) := by
    rw [hs, hmcast, hM]
    have hne : (2 : ℝ) * (h : ℝ) - 1 ≠ 0 := by intro hc; nlinarith
    field_simp
    ring
  rw [hsum, Real.cos_pi_div_two_sub]
  set x := Real.pi / (2 * ((N - 1 : ℕ) : ℝ)) with hx
  have hx0 : 0 ≤ x := by
    rw [hx]
    apply div_nonneg Real.pi_pos.le
    linarith
  have hxpi : x ≤ Real.pi := by
    have hhalf : x ≤ Real.pi / 2 := by
      rw [hx]
      apply div_le_div_of_nonneg_left Real.pi_pos.le (by norm_num)
      rw [hM]
      linarith
    linarith [Real.pi_pos]
  have hsin_nonneg : 0 ≤ Real.sin x :=
    Real.sin_nonneg_of_nonneg_of_le_pi hx0 hxpi
  have hsin_le : Real.sin x ≤ x := Real.sin_le hx0
  have hcos_le : |Real.cos ((s * i - s * m) / 2)| ≤ 1 := Real.abs_cos_le_one _
  have habs : |(2 : ℝ) * Real.sin x * Real.cos ((s * i - s * m) / 2)| / |(2 : ℝ)|
      = |Real.sin x| * |Real.cos ((s * i - s * m) / 2)| := by
    rw [abs_mul, abs_mul]
    rw [abs_of_nonneg (by norm_num : (0 : ℝ) ≤ 2)]
    ring
  rw [habs]
  calc |Real.sin x| * |Real.cos ((s * i - s * m) / 2)|
      ≤ |Real.sin x| * 1 := mul_le_mul_of_nonneg_left hcos_le (abs_nonneg _)
    _ = Real.sin x := by rw [mul_one, abs_of_nonneg hsin_nonneg]
    _ ≤ x := hsin_le
    _ = Real.pi / (2 * ((N : ℝ) - 1)) := by
        rw [hx]
        congr 1
        rw [Nat.cast_sub (by omega : 1 ≤ N)]
        push_cast
        ring

/-- C8 counterexample: the claim states `hann(N)[i] + hann(N)[i + N/2] ≈ 1.0`
within floating tolerance for every even `N`; at `N = 4`, `i = 0` the sum is
exactly `3/4` (the computed window is `[0, 0.75, 0.75, 0]`), a deviation of
`1/4` — far beyond floating tolerance (the repository's own even-size test
uses `1e-2`). -/
theorem c8_counterexample :
    (hann 4).getD 0 0 + (hann 4).getD 2 0 - 1 = -(1 / 4) ∧
    (1 / 100 : ℝ) < |(hann 4).getD 0 0 + (hann 4).getD 2 0 - 1| := by
  have e1 : (hann 4).getD 0 0 = 0 := by
    rw [hann_getD_lo 4 0 (by norm_num) (by norm_num)]
    norm_num
  have e2 : (hann 4).getD 2 0 = 3 / 4 := by
    rw [hann_getD_hi 4 2 (by norm_num) (by norm_num) (by norm_num)]
    have harg : 2 * Real.pi / ((4 - 1 : ℕ) : ℝ) * ((4 - 2 - 1 : ℕ) : ℝ)
        = Real.pi - Real.pi / 3 := by
      norm_num
      ring
    rw [harg, Real.cos_pi_sub, Real.cos_pi_div_three]
    norm_num
  rw [e1, e2]
  constructor
  · norm_num
  · rw [show (0 : ℝ) + 3 / 4 - 1 = -(1 / 4) by norm_num, abs_neg]
    rw [abs_of_nonneg (by norm_num : (0 : ℝ) ≤ 1 / 4)]
    norm_num

/-- C8 (amended): the claimed sum of opposite Hann weights is `1` only up to a
size-dependent deviation: for every even `N` and `i < N/2`,
`|hann(N)[i] + hann(N)[i + N/2] - 1| ≤ π / (2*(N-1))` (so the sum tends to `1`
as `N` grows but is not within a fixed floating tolerance for small even `N`,
e.g. deviation `1/4` at `N = 4`); `hann 0 = []` and `hann 1 = [0.0]` hold as
claimed. -/
theorem c8_hann_symmetry :
    (∀ N i, N % 2 = 0 → i < N / 2 →
      |(hann N).getD i 0 + (hann N).getD (i + N / 2) 0 - 1| ≤
        Real.pi / (2 * ((N : ℝ) - 1))) ∧
    hann 0 = [] ∧ hann 1 = [0] :=
  ⟨hann_even_pair_bound, rfl, rfl⟩

theorem c8_witness :
    |(hann 1024).getD 7 0 + (hann 1024).getD (7 + 1024 / 2) 0 - 1| ≤
      Real.pi / (2 * (((1024 : ℕ) : ℝ) - 1)) :=
  c8_hann_symmetry.1 1024 7 (by norm_num) (by norm_num)

/-! ## Theorems: overlap chunks iterator (claim C6) -/

theorem chunksGo_nil (cs step : ℕ) (h : 0 < step) :
    chunksGo cs step h ([] : List α) = [] := by
  rw [chunksGo]
  simp

theorem chunksGo_small (cs step : ℕ) (h : 0 < step) (v : List α)
    (hne : v ≠ []) (hle : v.length ≤ cs) : chunksGo cs step h v = [v] := by
  rw [chunksGo]
  rcases v with _ | ⟨a, v⟩
  · simp at hne
  · simp only [List.isEmpty_cons, Bool.false_eq_true, if_false]
    rw [if_pos hle]

theorem chunksGo_big (cs step : ℕ) (h : 0 < step) (v : List α)
    (hgt : cs < v.length) :
    chunksGo cs step h v = v.take cs :: chunksGo cs step h (v.drop step) := by
  rw [chunksGo]
  rcases v with _ | ⟨a, v⟩
  · simp at hgt
  · simp only [List.isEmpty_cons, Bool.false_eq_true, if_false]
    rw [if_neg (by omega)]

theorem chunksGo_join_drop (cs ov : ℕ) (hov : ov < cs) (hstep : 0 < cs - ov) :
    ∀ (n : ℕ) (v : List α), v.length ≤ n →
      ((chunksGo cs (cs - ov) hstep v).map (fun c => c.drop ov)).flatten =
        v.drop ov := by
  intro n
  induction n with
  | zero =>
    intro v hv
    have hv0 : v = [] := by cases v <;> simp_all
    subst hv0
    rw [chunksGo_nil]
    simp
  | succ n ih =>
    intro v hv
    rcases eq_or_ne v [] with rfl | hne
    · rw [chunksGo_nil]
      simp
    · by_cases hle : v.length ≤ cs
      · rw [chunksGo_small cs (cs - ov) hstep v hne hle]
        simp
      · push_neg at hle
        rw [chunksGo_big cs (cs - ov) hstep v hle]
        simp only [List.map_cons, List.flatten_cons]
        rw [ih (v.drop (cs - ov)) (by simp only [List.length_drop]; omega)]
        rw [List.drop_drop, Nat.sub_add_cancel hov.le]
        rw [List.drop_take]
        have hdd : v.drop cs = (v.drop ov).drop (cs - ov) := by
          rw [List.drop_drop]
          congr 1
          omega
        rw [hdd]
        exact List.take_append_drop _ _

theorem chunksGo_dedupConcat (cs ov : ℕ) (hov : ov < cs) (hstep : 0 < cs - ov)
    (v : List α) : dedupConcat ov (chunksGo cs (cs - ov) hstep v) = v := by
  rcases eq_or_ne v [] with rfl | hne
  · rw [chunksGo_nil]
    rfl
  · by_cases hle : v.length ≤ cs
    · rw [chunksGo_small cs (cs - ov) hstep v hne hle]
      simp [dedupConcat]
    · push_neg at hle
      rw [chunksGo_big cs (cs - ov) hstep v hle]
      simp only [dedupConcat]
      rw [chunksGo_join_drop cs ov hov hstep (v.drop (cs - ov)).length _ le_rfl]
      rw [List.drop_drop, Nat.sub_add_cancel hov.le]
      exact List.take_append_drop _ _

theorem chunksGo_length_eq (cs ov : ℕ) (hov : ov < cs) (hstep : 0 < cs - ov) :
    ∀ (n : ℕ) (v : List α), v.length ≤ n → v ≠ [] →
      (chunksGo cs (cs - ov) hstep v).length =
        (v.length - cs + (cs - ov) - 1) / (cs - ov) + 1 := by
  intro n
  induction n with
  | zero =>
    intro v hv hne
    cases v <;> simp_all
  | succ n ih =>
    intro v hv hne
    by_cases hle : v.length ≤ cs
    · rw [chunksGo_small cs (cs - ov) hstep v hne hle]
      have h1 : v.length - cs = 0 := by omega
      rw [h1]
      rw [Nat.div_eq_of_lt (by omega)]
      simp
    · push_neg at hle
      rw [chunksGo_big cs (cs - ov) hstep v hle]
      have hne2 : v.drop (cs - ov) ≠ [] := by
        have hld : (v.drop (cs - ov)).length = v.length - (cs - ov) := by simp
        intro hc
        rw [hc] at hld
        simp at hld
        omega
      rw [List.length_cons, ih (v.drop (cs - ov))
        (by simp only [List.length_drop]; omega) hne2]
      simp only [List.length_drop]
      set step := cs - ov with hstepdef
      set m := v.length - cs with hm
      have hm1 : 1 ≤ m := by omega
      have hrw : v.length - step - cs = m - step := by omega
      rw [hrw]
      by_cases hms : step ≤ m
      · have h2 : m - step + step - 1 = m - 1 := by omega
        have h3 : m + step - 1 = m - 1 + step := by omega
        rw [h2, h3, Nat.add_div_right _ hstep]
      · push_neg at hms
        have h2 : m - step = 0 := by omega
        rw [h2]
        have h3 : (0 + step - 1) / step = 0 := Nat.div_eq_of_lt (by omega)
        rw [h3]
        have h4 : (m + step - 1) / step = 1 := by
          apply Nat.div_eq_of_lt_le
          · omega
          · omega
        rw [h4]

theorem chunksGo_getD (cs ov : ℕ) (hov : ov < cs) (hstep : 0 < cs - ov) :
    ∀ (n : ℕ) (v : List α), v.length ≤ n →
      ∀ k, k < (chunksGo cs (cs - ov) hstep v).length →
        (chunksGo cs (cs - ov) hstep v).getD k [] =
          (v.drop (k * (cs - ov))).take cs := by
  intro n
  induction n with
  | zero =>
    intro v hv k hk
    have hv0 : v = [] := by cases v <;> simp_all
    subst hv0
    rw [chunksGo_nil] at hk
    simp at hk
  | succ n ih =>
    intro v hv k hk
    rcases eq_or_ne v [] with rfl | hne
    · rw [chunksGo_nil] at hk
      simp at hk
    · by_cases hle : v.length ≤ cs
      · rw [chunksGo_small cs (cs - ov) hstep v hne hle] at hk ⊢
        simp only [List.length_cons, List.length_nil] at hk
        interval_cases k
        simp only [List.getD_cons_zero, Nat.zero_mul, List.drop_zero]
        exact (List.take_of_length_le hle).symm
      · push_neg at hle
        rw [chunksGo_big cs (cs - ov) hstep v hle] at hk ⊢
        cases k with
        | zero =>
          simp only [List.getD_cons_zero, Nat.zero_mul, List.drop_zero]
        | succ k =>
          rw [List.getD_cons_succ]
          rw [List.length_cons] at hk
          rw [ih (v.drop (cs - ov)) (by simp only [List.length_drop]; omega) k
            (by omega)]
          rw [List.drop_drop]
          congr 2
          ring

/-- C6: for every slice, `chunk_size` and `overlap` with
`overlap < chunk_size`, the overlap-chunks iterator succeeds and yields chunks
such that chunk `k` starts at offset `k * (chunk_size - overlap)` and has
length `min(chunk_size, remaining)` (so the first chunk starts at `0` with
length `min(chunk_size, n)` and the final chunk is the possibly-shorter
remainder); concatenation-with-deduplication reconstructs the slice; and the
chunk count is `⌈max(n - chunk_size, 0) / (chunk_size - overlap)⌉ + 1` for
`n > 0` (written with the equivalent saturating `ℕ` formula) and `0` for
`n = 0`. -/
theorem c6_overlap_chunks {α : Type} (v : List α) (chunk_size overlap : ℕ)
    (hov : overlap < chunk_size) :
    ∃ chunks, overlap_chunks v chunk_size overlap = some chunks ∧
      (v = [] → chunks = []) ∧
      (v ≠ [] → chunks.length =
        (v.length - chunk_size + (chunk_size - overlap) - 1) /
          (chunk_size - overlap) + 1) ∧
      (∀ k, k < chunks.length →
        chunks.getD k [] = (v.drop (k * (chunk_size - overlap))).take chunk_size) ∧
      dedupConcat overlap chunks = v := by
  refine ⟨chunksGo chunk_size (chunk_size - overlap) (by omega) v, ?_, ?_, ?_, ?_, ?_⟩
  · rw [overlap_chunks, dif_pos hov]
  · intro hv
    subst hv
    exact chunksGo_nil _ _ _
  · intro hne
    exact chunksGo_length_eq chunk_size overlap hov (by omega) v.length v le_rfl hne
  · intro k hk
    exact chunksGo_getD chunk_size overlap hov (by omega) v.length v le_rfl k hk
  · exact chunksGo_dedupConcat chunk_size overlap hov (by omega) v

theorem c6_witness :
    ∃ chunks, overlap_chunks [1, 2, 3, 4, 5] 3 1 = some chunks ∧
      (([1, 2, 3, 4, 5] : List ℕ) = [] → chunks = []) ∧
      (([1, 2, 3, 4, 5] : List ℕ) ≠ [] → chunks.length =
        (([1, 2, 3, 4, 5] : List ℕ).length - 3 + (3 - 1) - 1) / (3 - 1) + 1) ∧
      (∀ k, k < chunks.length →
        chunks.getD k [] =
          (([1, 2, 3, 4, 5] : List ℕ).drop (k * (3 - 1))).take 3) ∧
      dedupConcat 1 chunks = [1, 2, 3, 4, 5] :=
  c6_overlap_chunks [1, 2, 3, 4, 5] 3 1 (by norm_num)

/-! ## Theorems: file_drop accumulation (claims C2, C10) -/

theorem accumLoop_length_le (cap : ℕ) :
    ∀ (blocks : List AudioBlock) (data : List ℝ), data.length ≤ cap →
      (accumLoop cap data blocks).1.length ≤ cap := by
  intro blocks
  induction blocks with
  | nil => intro data h; exact h
  | cons b rest ih =>
    intro data h
    cases b with
    | unsupported => exact h
    | f32 c =>
      simp only [accumLoop]
      by_cases hov : cap < data.length + c.length
      · rw [if_pos hov]
        exact h
      · rw [if_neg hov]
        apply ih
        simp only [List.length_append]
        omega

theorem accumLoop_taken_blocks (cap : ℕ) :
    ∀ (blocks : List AudioBlock) (data : List ℝ),
      ∃ k, (∀ b ∈ blocks.take k, ∃ c, b = AudioBlock.f32 c) ∧
        (accumLoop cap data blocks).1 =
          data ++ ((blocks.take k).map chanData).flatten := by
  intro blocks
  induction blocks with
  | nil => intro data; exact ⟨0, by simp, by simp [accumLoop]⟩
  | cons b rest ih =>
    intro data
    cases b with
    | unsupported => exact ⟨0, by simp, by simp [accumLoop]⟩
    | f32 c =>
      by_cases hov : cap < data.length + c.length
      · refine ⟨0, by simp, ?_⟩
        simp only [accumLoop]
        rw [if_pos hov]
        simp
      · obtain ⟨k, hks, hkeq⟩ := ih (data ++ c)
        refine ⟨k + 1, ?_, ?_⟩
        · intro b hb
          simp only [List.take_succ_cons, List.mem_cons] at hb
          rcases hb with rfl | hb
          · exact ⟨c, rfl⟩
          · exact hks b hb
        · simp only [accumLoop]
          rw [if_neg hov, hkeq]
          simp only [List.take_succ_cons, List.map_cons, List.flatten_cons,
            chanData, List.append_assoc]

/-- C2 (amended): the accumulation phase pulls decoded blocks until the stream
ends or a block would push past the cap `sample_rate * 120`; it copies only
channel 0, in stream order; after every processed prefix of the stream the
buffer length is at most the cap; and a block that would overflow the cap is
discarded whole (the loop breaks, the block is not truncated), so the final
buffer can be shorter than the cap even when the stream holds at least the
cap's worth of samples. -/
theorem c2_accumulation (source : FftSource) (file_name : String)
    (sample_rate : ℕ) (blocks : List AudioBlock) :
    (file_drop source file_name sample_rate blocks).1.data.length ≤
      sample_rate * 120 ∧
    (∀ j, (accumLoop (sample_rate * 120) [] (blocks.take j)).1.length ≤
      sample_rate * 120) ∧
    ∃ k, (∀ b ∈ blocks.take k, ∃ c, b = AudioBlock.f32 c) ∧
      (file_drop source file_name sample_rate blocks).1.data =
        ((blocks.take k).map chanData).flatten := by
  refine ⟨?_, ?_, ?_⟩
  · exact accumLoop_length_le _ blocks [] (by simp)
  · intro j
    exact accumLoop_length_le _ (blocks.take j) [] (by simp)
  · obtain ⟨k, hks, hkeq⟩ := accumLoop_taken_blocks (sample_rate * 120) blocks []
    exact ⟨k, hks, by simpa using hkeq⟩

/-- C2 counterexample: the claim says a block that would overflow the cap is
truncated so that exactly the cap's worth of samples is retained; in the code
the loop `break`s instead (`main.rs:329-331`) and the block is dropped whole:
with `sample_rate = 1` (cap `120`) and a single decoded block of `121`
samples, the stream holds more than the cap's worth of samples yet the
resulting buffer is empty, not of length `120`. -/
theorem c2_counterexample :
    (file_drop ⟨"", 48000, []⟩ "clip" 1
        [AudioBlock.f32 (List.replicate 121 0)]).1.data.length = 0 ∧
    1 * 120 ≤ (List.replicate 121 (0 : ℝ)).length ∧ (0 : ℕ) ≠ 1 * 120 := by
  refine ⟨?_, by simp, by norm_num⟩
  simp only [file_drop, accumLoop]
  rw [if_pos (by simp)]
  rfl

theorem c2_witness :
    (file_drop ⟨"", 48000, []⟩ "clip" 1 [AudioBlock.f32 [1, 2]]).1.data.length ≤
      1 * 120 ∧
    (∀ j, (accumLoop (1 * 120) [] ([AudioBlock.f32 [1, 2]].take j)).1.length ≤
      1 * 120) ∧
    ∃ k, (∀ b ∈ [AudioBlock.f32 [1, 2]].take k, ∃ c, b = AudioBlock.f32 c) ∧
      (file_drop ⟨"", 48000, []⟩ "clip" 1 [AudioBlock.f32 [1, 2]]).1.data =
        (([AudioBlock.f32 [1, 2]].take k).map chanData).flatten :=
  c2_accumulation ⟨"", 48000, []⟩ "clip" 1 [AudioBlock.f32 [1, 2]]

theorem accumLoop_unsupported (cap : ℕ) :
    ∀ (pre : List (List ℝ)) (data : List ℝ) (rest : List AudioBlock),
      data.length + (pre.map List.length).sum ≤ cap →
      accumLoop cap data
          (pre.map AudioBlock.f32 ++ AudioBlock.unsupported :: rest) =
        (data ++ pre.flatten, false) := by
  intro pre
  induction pre with
  | nil => intro data rest hfit; simp [accumLoop]
  | cons c pre ih =>
    intro data rest hfit
    simp only [List.map_cons, List.sum_cons] at hfit ⊢
    rw [List.cons_append]
    simp only [accumLoop]
    rw [if_neg (by omega)]
    rw [ih (data ++ c) rest (by simp only [List.length_append]; omega)]
    simp only [List.flatten_cons, List.append_assoc]

/-- C10: if a decoded block is not in 32-bit float format, `file_drop` logs an
error and returns early (`main.rs:323-327`): the source's name and sample rate
are already overwritten, the samples accumulated from the blocks before the
offending one are retained (the previous source is not restored), the
`UpdateSpectrum` event is not sent, and no error value is returned to any
caller (the function's only error return was commented out at `main.rs:324`;
the modelled return type has no error component). -/
theorem c10_unsupported_block_partial_overwrite (source : FftSource)
    (file_name : String) (sample_rate : ℕ)
    (pre : List (List ℝ)) (rest : List AudioBlock)
    (hfits : (pre.map List.length).sum ≤ sample_rate * 120) :
    file_drop source file_name sample_rate
        (pre.map AudioBlock.f32 ++ AudioBlock.unsupported :: rest) =
      ({ name := file_name, sample_rate := sample_rate,
         data := pre.flatten }, false) := by
  simp only [file_drop]
  rw [accumLoop_unsupported (sample_rate * 120) pre [] rest (by simpa using hfits)]
  simp

theorem c10_witness :
    file_drop ⟨"old", 9, [5]⟩ "new" 1
        [AudioBlock.f32 [1, 2], AudioBlock.unsupported, AudioBlock.f32 [3]] =
      ({ name := "new", sample_rate := 1, data := [1, 2] }, false) := by
  have h := c10_unsupported_block_partial_overwrite ⟨"old", 9, [5]⟩ "new" 1
    [[1, 2]] [AudioBlock.f32 [3]] (by simp)
  simpa using h

/-! ## Theorems: decoder loop (claim C7) -/

theorem decodeAll_of_none {β : Type} {track : ℕ} {ps : List (Packet β)}
    (h : decodeNext track ps = none) : decodeAll track ps = [] := by
  rw [decodeAll]
  split
  · rfl
  · rename_i b rest hsome
    rw [h] at hsome
    cases hsome

theorem decodeAll_of_some {β : Type} {track : ℕ} {ps rest : List (Packet β)}
    {b : β} (h : decodeNext track ps = some (b, rest)) :
    decodeAll track ps = b :: decodeAll track rest := by
  rw [decodeAll]
  split
  · rename_i hnone
    rw [h] at hnone
    cases hnone
  · rename_i b2 rest2 hsome
    rw [h] at hsome
    simp only [Option.some.injEq, Prod.mk.injEq] at hsome
    rw [← hsome.1, ← hsome.2]

theorem decodeAll_congr_next {β : Type} {track : ℕ} {ps qs : List (Packet β)}
    (h : decodeNext track ps = decodeNext track qs) :
    decodeAll track ps = decodeAll track qs := by
  cases hq : decodeNext track qs with
  | none => rw [decodeAll_of_none (h.trans hq), decodeAll_of_none hq]
  | some br =>
    obtain ⟨b, r⟩ := br
    rw [decodeAll_of_some (h.trans hq), decodeAll_of_some hq]

theorem decodeAll_eq_filterMap {β : Type} (track : ℕ) :
    ∀ (n : ℕ) (ps : List (Packet β)), ps.length ≤ n →
      decodeAll track ps =
        ps.filterMap (fun p => if p.track_id = track then p.payload else none) := by
  intro n
  induction n with
  | zero =>
    intro ps hlen
    have : ps = [] := by cases ps <;> simp_all
    subst this
    rw [decodeAll_of_none (by rw [decodeNext])]
    rfl
  | succ n ih =>
    intro ps hlen
    cases ps with
    | nil =>
      rw [decodeAll_of_none (by rw [decodeNext])]
      rfl
    | cons p rest =>
      have hrest : rest.length ≤ n := by
        simp only [List.length_cons] at hlen
        omega
      by_cases ht : p.track_id = track
      · cases hpay : p.payload with
        | none =>
          have hstep : decodeNext track (p :: rest) = decodeNext track rest := by
            simp only [decodeNext]
            rw [if_neg (by simp [ht]), hpay]
          rw [decodeAll_congr_next hstep, ih rest hrest]
          simp [List.filterMap_cons, ht, hpay]
        | some b =>
          have hstep : decodeNext track (p :: rest) = some (b, rest) := by
            simp only [decodeNext]
            rw [if_neg (by simp [ht]), hpay]
          rw [decodeAll_of_some hstep, ih rest hrest]
          simp [List.filterMap_cons, ht, hpay]
      · have hstep : decodeNext track (p :: rest) = decodeNext track rest := by
          simp only [decodeNext]
          rw [if_pos (by simpa using ht)]
        rw [decodeAll_congr_next hstep, ih rest hrest]
        simp [List.filterMap_cons, ht]

theorem decodeNext_none_iff {β : Type} (track : ℕ) :
    ∀ ps : List (Packet β),
      (decodeNext track ps = none ↔
        ∀ p ∈ ps, p.track_id = track → p.payload = none) := by
  intro ps
  induction ps with
  | nil => simp [decodeNext]
  | cons p rest ih =>
    by_cases ht : p.track_id = track
    · cases hpay : p.payload with
      | none =>
        have hstep : decodeNext track (p :: rest) = decodeNext track rest := by
          simp only [decodeNext]
          rw [if_neg (by simp [ht]), hpay]
        rw [hstep, ih]
        constructor
        · intro h q hq
          rcases List.mem_cons.mp hq with rfl | hq2
          · intro _; exact hpay
          · exact h q hq2
        · intro h q hq
          exact h q (List.mem_cons_of_mem p hq)
      | some b =>
        have hstep : decodeNext track (p :: rest) = some (b, rest) := by
          simp only [decodeNext]
          rw [if_neg (by simp [ht]), hpay]
        rw [hstep]
        constructor
        · intro h; simp at h
        · intro h
          have := h p (List.mem_cons_self p rest) ht
          rw [hpay] at this
          simp at this
    · have hstep : decodeNext track (p :: rest) = decodeNext track rest := by
        simp only [decodeNext]
        rw [if_pos (by simpa using ht)]
      rw [hstep, ih]
      constructor
      · intro h q hq
        rcases List.mem_cons.mp hq with rfl | hq2
        · intro hqt; exact absurd hqt ht
        · exact h q hq2
      · intro h q hq
        exact h q (List.mem_cons_of_mem p hq)

/-- C7: iterating `Decoder::decode` on a packet stream surfaces exactly the
successfully decoded blocks of the selected track, in stream order: packets of
other tracks are silently discarded and packets whose decode fails are logged
and skipped without surfacing an error or aborting; `decode` returns `None`
exactly when no decodable packet of the selected track remains (the stream is
exhausted or every remaining pull fails, which the loop treats as
end-of-data). -/
theorem c7_decoder_resilience {β : Type} (track_id : ℕ) (ps : List (Packet β)) :
    decodeAll track_id ps =
      ps.filterMap (fun p => if p.track_id = track_id then p.payload else none) ∧
    (decodeNext track_id ps = none ↔
      ∀ p ∈ ps, p.track_id = track_id → p.payload = none) :=
  ⟨decodeAll_eq_filterMap track_id ps.length ps le_rfl,
    decodeNext_none_iff track_id ps⟩

theorem c7_witness :
    decodeAll 1 [Packet.mk 1 (some 5), Packet.mk 2 (some 6),
      Packet.mk 1 (none : Option ℕ), Packet.mk 1 (some 7)] = [5, 7] := by
  have h := (c7_decoder_resilience 1 [Packet.mk 1 (some 5), Packet.mk 2 (some 6),
    Packet.mk 1 (none : Option ℕ), Packet.mk 1 (some 7)]).1
  rw [h]
  decide

/-! ## Theorems: spectrogram builders (claims C1, C4) -/

theorem f32AsU8_le (x : ℝ) : f32AsU8 x ≤ 255 :=
  min_le_left _ _

theorem quantizeFft_le (v : ℂ) : quantizeFft v ≤ 255 :=
  f32AsU8_le _

theorem quantizeGoertzel_le (s : ℝ) : quantizeGoertzel s ≤ 255 :=
  f32AsU8_le _

theorem getD_replicate_zero (pad j : ℕ) :
    (List.replicate pad (0 : ℕ)).getD j 0 = 0 := by
  by_cases hj : j < pad
  · rw [List.getD_eq_getElem _ _ (by simpa using hj)]
    simp
  · rw [List.getD_eq_default]
    simpa using (by omega : pad ≤ j)

theorem getD_pad_zero (l : List ℕ) (pad i : ℕ) (h : l.length ≤ i) :
    (l ++ List.replicate pad 0).getD i 0 = 0 := by
  rw [List.getD_append_right _ _ _ _ h]
  exact getD_replicate_zero pad (i - l.length)

theorem flatten_length_le (l : List (List ℕ)) (c : ℕ)
    (h : ∀ x ∈ l, x.length ≤ c) : l.flatten.length ≤ l.length * c := by
  induction l with
  | nil => simp
  | cons x xs ih =>
    simp only [List.flatten_cons, List.length_append, List.length_cons]
    have h1 : x.length ≤ c := h x (List.mem_cons_self _ _)
    have h2 : xs.flatten.length ≤ xs.length * c :=
      ih (fun y hy => h y (List.mem_cons_of_mem _ hy))
    calc x.length + xs.flatten.length ≤ c + xs.length * c := by omega
      _ = (xs.length + 1) * c := by ring

theorem rows_eq_range (m : ℕ) (p : ℕ → Bool) :
    (List.range m).takeWhile p =
      List.range ((List.range m).takeWhile p).length := by
  have hpre := List.takeWhile_prefix p (l := List.range m)
  have heq := List.prefix_iff_eq_take.mp hpre
  have hlen : ((List.range m).takeWhile p).length ≤ m := by
    have hl := hpre.length_le
    simpa using hl
  conv_lhs => rw [heq]
  rw [List.take_range]
  congr 1
  omega

theorem rows_mul_le (m w L : ℕ) :
    ((List.range m).takeWhile (fun row => decide (row * w + w ≤ L))).length = 0 ∨
    ((List.range m).takeWhile (fun row => decide (row * w + w ≤ L))).length * w ≤ L := by
  set p := fun row => decide (row * w + w ≤ L) with hp
  set k := ((List.range m).takeWhile p).length with hk
  rcases Nat.eq_zero_or_pos k with h0 | hpos
  · exact Or.inl h0
  · right
    have hmem : (k - 1) ∈ (List.range m).takeWhile p := by
      rw [rows_eq_range, ← hk]
      exact List.mem_range.mpr (by omega)
    have hpk := List.mem_takeWhile_imp hmem
    rw [hp] at hpk
    simp only [decide_eq_true_eq] at hpk
    have hke : (k - 1) * w + w = k * w := by
      have hk1 : k - 1 + 1 = k := by omega
      calc (k - 1) * w + w = ((k - 1) + 1) * w := by ring
        _ = k * w := by rw [hk1]
    omega

theorem rows_le_div (m w L : ℕ) (hw : 0 < w) :
    ((List.range m).takeWhile (fun row => decide (row * w + w ≤ L))).length ≤
      L / w := by
  rcases rows_mul_le m w L with h0 | hle
  · rw [h0]
    exact Nat.zero_le _
  · exact (Nat.le_div_iff_mul_le hw).mpr hle

theorem rows_le_m (m : ℕ) (p : ℕ → Bool) :
    ((List.range m).takeWhile p).length ≤ m := by
  have hl := ( List.takeWhile_prefix p (l := List.range m)).length_le
  simpa using hl

theorem build_fft_shape (r2c : List ℝ → List ℂ) (source : FftSource)
    (config : FftConfig)
    (hws : windowSize source.sample_rate config.resolution_hz ≠ 0) :
    ∃ img, build_spectrum_fft r2c source config = some img ∧
      img.data.length = img.width * img.height ∧
      (∀ b ∈ img.data, b ≤ 255) ∧
      (∀ i, (source.data.length /
          windowSize source.sample_rate config.resolution_hz) * img.width ≤ i →
        img.data.getD i 0 = 0) := by
  have hbuild : build_spectrum_fft r2c source config = some
      { width := 1 + ⌊(MAX_FREQ / (source.sample_rate : ℚ)) *
          ((windowSize source.sample_rate config.resolution_hz : ℕ) : ℚ)⌋.toNat,
        height := source.sample_rate * config.duration_sec /
          windowSize source.sample_rate config.resolution_hz,
        data :=
          (((List.range (source.sample_rate * config.duration_sec /
              windowSize source.sample_rate config.resolution_hz)).takeWhile
            (fun row => decide (row * windowSize source.sample_rate config.resolution_hz +
              windowSize source.sample_rate config.resolution_hz ≤ source.data.length))).map
            (fun row =>
              ((r2c ((source.data.drop (row * windowSize source.sample_rate
                  config.resolution_hz)).take
                  (windowSize source.sample_rate config.resolution_hz))).take
                (1 + ⌊(MAX_FREQ / (source.sample_rate : ℚ)) *
                  ((windowSize source.sample_rate config.resolution_hz : ℕ) : ℚ)⌋.toNat)).map
                quantizeFft)).flatten ++
          List.replicate ((1 + ⌊(MAX_FREQ / (source.sample_rate : ℚ)) *
              ((windowSize source.sample_rate config.resolution_hz : ℕ) : ℚ)⌋.toNat) *
            (source.sample_rate * config.duration_sec /
              windowSize source.sample_rate config.resolution_hz) -
            (((List.range (source.sample_rate * config.duration_sec /
                windowSize source.sample_rate config.resolution_hz)).takeWhile
              (fun row => decide (row * windowSize source.sample_rate config.resolution_hz +
                windowSize source.sample_rate config.resolution_hz ≤ source.data.length))).map
              (fun row =>
                ((r2c ((source.data.drop (row * windowSize source.sample_rate
                    config.resolution_hz)).take
                    (windowSize source.sample_rate config.resolution_hz))).take
                  (1 + ⌊(MAX_FREQ / (source.sample_rate : ℚ)) *
                    ((windowSize source.sample_rate config.resolution_hz : ℕ) : ℚ)⌋.toNat)).map
                  quantizeFft)).flatten.length) 0 } := by
    simp only [build_spectrum_fft]
    rw [if_neg hws]
  refine ⟨_, hbuild, ?_, ?_, ?_⟩
  all_goals
    simp only
  · set ws := windowSize source.sample_rate config.resolution_hz with hwsdef
    set bins := 1 + ⌊(MAX_FREQ / (source.sample_rate : ℚ)) * ((ws : ℕ) : ℚ)⌋.toNat with hbins
    set m := source.sample_rate * config.duration_sec / ws with hm
    set rows := (List.range m).takeWhile
      (fun row => decide (row * ws + ws ≤ source.data.length)) with hrows
    set body := (rows.map (fun row =>
      ((r2c ((source.data.drop (row * ws)).take ws)).take bins).map
        quantizeFft)).flatten with hbody
    have hrow_len : ∀ x ∈ rows.map (fun row =>
        ((r2c ((source.data.drop (row * ws)).take ws)).take bins).map quantizeFft),
        x.length ≤ bins := by
      intro x hx
      obtain ⟨row, _, rfl⟩ := List.mem_map.mp hx
      simp only [List.length_map, List.length_take]
      omega
    have hblen : body.length ≤ rows.length * bins := by
      have := flatten_length_le _ bins hrow_len
      simpa [hbody] using this
    have hrm : rows.length ≤ m := rows_le_m m _
    have hble : body.length ≤ bins * m :=
      le_trans hblen (by calc rows.length * bins ≤ m * bins :=
          Nat.mul_le_mul_right bins hrm
        _ = bins * m := Nat.mul_comm m bins)
    simp only [List.length_append, List.length_replicate]
    omega
  · intro b hb
    rcases List.mem_append.mp hb with hb1 | hb2
    · obtain ⟨x, hx, hbx⟩ := List.mem_flatten.mp hb1
      obtain ⟨row, _, rfl⟩ := List.mem_map.mp hx
      obtain ⟨v, _, rfl⟩ := List.mem_map.mp hbx
      exact quantizeFft_le v
    · rw [List.eq_of_mem_replicate hb2]
      omega
  · intro i hi
    set ws := windowSize source.sample_rate config.resolution_hz with hwsdef
    set bins := 1 + ⌊(MAX_FREQ / (source.sample_rate : ℚ)) * ((ws : ℕ) : ℚ)⌋.toNat with hbins
    set m := source.sample_rate * config.duration_sec / ws with hm
    set rows := (List.range m).takeWhile
      (fun row => decide (row * ws + ws ≤ source.data.length)) with hrows
    set body := (rows.map (fun row =>
      ((r2c ((source.data.drop (row * ws)).take ws)).take bins).map
        quantizeFft)).flatten with hbody
    apply getD_pad_zero
    have hrow_len : ∀ x ∈ rows.map (fun row =>
        ((r2c ((source.data.drop (row * ws)).take ws)).take bins).map quantizeFft),
        x.length ≤ bins := by
      intro x hx
      obtain ⟨row, _, rfl⟩ := List.mem_map.mp hx
      simp only [List.length_map, List.length_take]
      omega
    have hblen : body.length ≤ rows.length * bins := by
      have := flatten_length_le _ bins hrow_len
      simpa [hbody] using this
    have hdiv : rows.length ≤ source.data.length / ws :=
      rows_le_div m ws source.data.length (by omega)
    calc body.length ≤ rows.length * bins := hblen
      _ ≤ (source.data.length / ws) * bins := Nat.mul_le_mul_right bins hdiv
      _ ≤ i := hi

theorem listChunks_nil (n : ℕ) : listChunks ([] : List α) n = [] := by
  rw [listChunks]
  simp

theorem listChunks_length (n : ℕ) (hn : 0 < n) :
    ∀ (fuel : ℕ) (l : List α), l.length ≤ fuel →
      (listChunks l n).length = (l.length + n - 1) / n := by
  intro fuel
  induction fuel with
  | zero =>
    intro l hl
    have hl0 : l = [] := by cases l <;> simp_all
    subst hl0
    rw [listChunks_nil]
    simp only [List.length_nil, Nat.zero_add]
    rw [Nat.div_eq_of_lt (by omega)]
  | succ fuel ih =>
    intro l hl
    rcases eq_or_ne l [] with rfl | hne
    · rw [listChunks_nil]
      simp only [List.length_nil, Nat.zero_add]
      rw [Nat.div_eq_of_lt (by omega)]
    · have hlpos : 0 < l.length := List.length_pos.mpr hne
      rw [listChunks]
      rw [if_neg (by simpa using hne), dif_neg (by omega)]
      rw [List.length_cons, ih (l.drop n) (by simp only [List.length_drop]; omega)]
      simp only [List.length_drop]
      by_cases hln : n ≤ l.length
      · have h2 : l.length - n + n - 1 = l.length - 1 := by omega
        have h3 : l.length + n - 1 = l.length - 1 + n := by omega
        rw [h2, h3, Nat.add_div_right _ hn]
      · push_neg at hln
        have h2 : l.length - n = 0 := by omega
        rw [h2]
        rw [Nat.div_eq_of_lt (by omega)]
        have h4 : (l.length + n - 1) / n = 1 := by
          apply Nat.div_eq_of_lt_le
          · omega
          · omega
        rw [h4]

theorem statesFold_length (chunk : List ℝ) :
    ∀ sts : List Goertzel,
      (chunk.foldl (fun sts sample => sts.map (fun g => g.process sample)) sts).length =
        sts.length := by
  induction chunk with
  | nil => intro sts; rfl
  | cons s rest ih =>
    intro sts
    rw [List.foldl_cons, ih]
    simp

theorem rowFlatten_length (ws : ℕ) (l : List Goertzel) :
    ((l.map (fun g =>
      List.replicate 3 (quantizeGoertzel (g.magnitude ws)))).flatten).length =
      3 * l.length := by
  induction l with
  | nil => rfl
  | cons g rest ih =>
    simp only [List.map_cons, List.flatten_cons, List.length_append, ih,
      List.length_replicate, List.length_cons]
    ring

theorem goertzelRow_fold_facts (ws : ℕ) :
    ∀ (chunks : List (List ℝ)) (acc : List ℕ) (sts : List Goertzel),
      (∀ b ∈ acc, b ≤ 255) →
      (chunks.foldl (goertzelRowStep ws) (acc, sts)).2.length = sts.length ∧
      (chunks.foldl (goertzelRowStep ws) (acc, sts)).1.length =
        acc.length + (2 + 3 * sts.length + 3) * chunks.length ∧
      (∀ b ∈ (chunks.foldl (goertzelRowStep ws) (acc, sts)).1, b ≤ 255) := by
  intro chunks
  induction chunks with
  | nil =>
    intro acc sts hacc
    exact ⟨rfl, by simp, hacc⟩
  | cons chunk rest ih =>
    intro acc sts hacc
    rw [List.foldl_cons]
    have hstep : goertzelRowStep ws (acc, sts) chunk =
        (acc ++ ([0, 0] ++
          ((chunk.foldl (fun (s2 : List Goertzel) sample =>
              s2.map (fun g => g.process sample)) sts).map
            (fun g => List.replicate 3 (quantizeGoertzel (g.magnitude ws)))).flatten
          ++ [0, 0, 0]),
         (chunk.foldl (fun (s2 : List Goertzel) sample =>
             s2.map (fun g => g.process sample)) sts).map
           Goertzel.reset) := rfl
    rw [hstep]
    set row := [0, 0] ++
      ((chunk.foldl (fun (s2 : List Goertzel) sample =>
          s2.map (fun g => g.process sample)) sts).map
        (fun g => List.replicate 3 (quantizeGoertzel (g.magnitude ws)))).flatten
      ++ [0, 0, 0] with hrowdef
    set sts2 := (chunk.foldl (fun (s2 : List Goertzel) sample =>
        s2.map (fun g => g.process sample)) sts).map Goertzel.reset with hsts2def
    have hsts2len : sts2.length = sts.length := by
      rw [hsts2def, List.length_map, statesFold_length]
    have hrowlen : row.length = 2 + 3 * sts.length + 3 := by
      rw [hrowdef]
      simp only [List.length_append, List.length_cons, List.length_nil,
        rowFlatten_length, statesFold_length]
      try omega
    have hrowmem : ∀ b ∈ row, b ≤ 255 := by
      intro b hb
      rw [hrowdef] at hb
      rcases List.mem_append.mp hb with hb1 | hb3
      · rcases List.mem_append.mp hb1 with hb0 | hb2
        · have hb00 : b = 0 := by simpa using hb0
          omega
        · obtain ⟨x, hx, hbx⟩ := List.mem_flatten.mp hb2
          obtain ⟨g, _, rfl⟩ := List.mem_map.mp hx
          rw [List.eq_of_mem_replicate hbx]
          exact quantizeGoertzel_le _
      · have hb00 : b = 0 := by simpa using hb3
        omega
    have haccrow : ∀ b ∈ acc ++ row, b ≤ 255 := by
      intro b hb
      rcases List.mem_append.mp hb with h1 | h2
      · exact hacc b h1
      · exact hrowmem b h2
    obtain ⟨ih1, ih2, ih3⟩ := ih (acc ++ row) sts2 haccrow
    refine ⟨by rw [ih1, hsts2len], ?_, ih3⟩
    rw [ih2, hsts2len, List.length_append, hrowlen, List.length_cons]
    ring

theorem build_goertzel_shape (source : FftSource) (config : FftConfig)
    (hws : windowSize source.sample_rate config.resolution_hz ≠ 0) :
    ∃ img, build_spectrum_goertzel source config = some img ∧
      img.data.length = img.width * img.height ∧
      (∀ b ∈ img.data, b ≤ 255) ∧
      (∀ i, ((source.data.length +
            windowSize source.sample_rate config.resolution_hz - 1) /
          windowSize source.sample_rate config.resolution_hz) * img.width ≤ i →
        img.data.getD i 0 = 0) := by
  refine ⟨_, by simp only [build_spectrum_goertzel]; rw [if_neg hws], ?_, ?_, ?_⟩
  · dsimp only
    obtain ⟨_, hf2, _⟩ := goertzelRow_fold_facts
      (windowSize source.sample_rate config.resolution_hz)
      ((listChunks source.data (windowSize source.sample_rate config.resolution_hz)).take
        (source.sample_rate * config.duration_sec /
          windowSize source.sample_rate config.resolution_hz))
      []
      ((List.range 88).map (fun key => Goertzel.new source.sample_rate (keyFrequency key)))
      (by simp)
    rw [List.length_append, List.length_replicate, hf2]
    simp only [List.length_map, List.length_range, List.length_nil, List.length_take]
    omega
  · dsimp only
    intro b hb
    rcases List.mem_append.mp hb with hb1 | hb2
    · obtain ⟨_, _, hf3⟩ := goertzelRow_fold_facts
        (windowSize source.sample_rate config.resolution_hz)
        ((listChunks source.data (windowSize source.sample_rate config.resolution_hz)).take
          (source.sample_rate * config.duration_sec /
            windowSize source.sample_rate config.resolution_hz))
        []
        ((List.range 88).map (fun key => Goertzel.new source.sample_rate (keyFrequency key)))
        (by simp)
      exact hf3 b hb1
    · rw [List.eq_of_mem_replicate hb2]
      omega
  · dsimp only
    intro i hi
    apply getD_pad_zero
    obtain ⟨_, hf2, _⟩ := goertzelRow_fold_facts
      (windowSize source.sample_rate config.resolution_hz)
      ((listChunks source.data (windowSize source.sample_rate config.resolution_hz)).take
        (source.sample_rate * config.duration_sec /
          windowSize source.sample_rate config.resolution_hz))
      []
      ((List.range 88).map (fun key => Goertzel.new source.sample_rate (keyFrequency key)))
      (by simp)
    rw [hf2]
    simp only [List.length_map, List.length_range, List.length_nil, List.length_take]
    have hcl : (listChunks source.data
        (windowSize source.sample_rate config.resolution_hz)).length =
        (source.data.length + windowSize source.sample_rate config.resolution_hz - 1) /
          windowSize source.sample_rate config.resolution_hz :=
      listChunks_length _ (by omega) source.data.length source.data le_rfl
    rw [hcl] at *
    omega

theorem takeWhile_zero_len (mm wsv : ℕ) (h : wsv ≠ 0) :
    (List.range mm).takeWhile (fun row => decide (row * wsv + wsv ≤ 0)) = [] := by
  rw [List.takeWhile_eq_nil_iff]
  intro hl
  simp only [List.get_eq_getElem, List.getElem_range, decide_eq_true_eq]
  omega

/-- C1 counterexample: the claim says that for an `AudioSource` with an empty
sample sequence both builders fail with `InvalidWindowSize` and return no
buffer; at `sample_rate = 48000`, `resolution = 50 Hz`, `duration = 1 s`
(window size `960`) and an empty sample list, both builders succeed and
return an image buffer (the code has no `InvalidWindowSize` error at all). -/
theorem c1_counterexample :
    (build_spectrum_fft (fun _ => []) ⟨"", 48000, []⟩
        ⟨50, 1, Algorithm.Fft⟩).isSome = true ∧
    (build_spectrum_goertzel ⟨"", 48000, []⟩
        ⟨50, 1, Algorithm.Goertzel⟩).isSome = true := by
  have hws : windowSize 48000 50 = 960 := by
    unfold windowSize
    push_cast
    rw [show ⌊(48000 : ℚ) / 50⌋ = 960 by norm_num]
    rfl
  constructor
  · simp only [build_spectrum_fft, hws]
    rw [if_neg (by omega)]
    rfl
  · simp only [build_spectrum_goertzel, hws]
    rw [if_neg (by omega)]
    rfl

/-- C1 (amended): neither builder produces an `InvalidWindowSize` error value
(no such error exists in the code).  For a source with an empty sample
sequence and a nonzero window size both builders succeed and return a fully
zero-filled `width*height` buffer; when the derived window size is `0` both
builders hit an integer division by zero, i.e. a panic (modelled as `none`),
not a returned error value. -/
theorem c1_no_invalid_window_error (r2c : List ℝ → List ℂ) (source : FftSource)
    (config : FftConfig) (hres : 0 < config.resolution_hz)
    (hdata : source.data = []) :
    (windowSize source.sample_rate config.resolution_hz = 0 →
      build_spectrum_fft r2c source config = none ∧
      build_spectrum_goertzel source config = none) ∧
    (windowSize source.sample_rate config.resolution_hz ≠ 0 →
      (∃ img, build_spectrum_fft r2c source config = some img ∧
        img.data = List.replicate (img.width * img.height) 0) ∧
      (∃ img, build_spectrum_goertzel source config = some img ∧
        img.data = List.replicate (img.width * img.height) 0)) := by
  constructor
  · intro h0
    constructor
    · simp only [build_spectrum_fft]
      rw [if_pos h0]
    · simp only [build_spectrum_goertzel]
      rw [if_pos h0]
  · intro hws
    constructor
    · refine ⟨_, by simp only [build_spectrum_fft]; rw [if_neg hws], ?_⟩
      dsimp only
      rw [hdata]
      simp only [List.length_nil]
      rw [takeWhile_zero_len _ _ hws]
      simp
    · refine ⟨_, by simp only [build_spectrum_goertzel]; rw [if_neg hws], ?_⟩
      dsimp only
      rw [hdata, listChunks_nil]
      simp

theorem c1_witness :
    (windowSize 48000 50 = 0 →
      build_spectrum_fft (fun _ => []) ⟨"", 48000, []⟩ ⟨50, 1, Algorithm.Fft⟩ = none ∧
      build_spectrum_goertzel ⟨"", 48000, []⟩ ⟨50, 1, Algorithm.Fft⟩ = none) ∧
    (windowSize 48000 50 ≠ 0 →
      (∃ img, build_spectrum_fft (fun _ => []) ⟨"", 48000, []⟩
          ⟨50, 1, Algorithm.Fft⟩ = some img ∧
        img.data = List.replicate (img.width * img.height) 0) ∧
      (∃ img, build_spectrum_goertzel ⟨"", 48000, []⟩
          ⟨50, 1, Algorithm.Fft⟩ = some img ∧
        img.data = List.replicate (img.width * img.height) 0)) :=
  c1_no_invalid_window_error (fun _ => []) ⟨"", 48000, []⟩ ⟨50, 1, Algorithm.Fft⟩
    (by norm_num) rfl

/-- C4 (amended): for a valid configuration (positive resolution, nonzero
window size) and a non-empty source, both builders return a matrix whose byte
length is exactly `width*height` with every cell in `[0,255]`.  For the
Fourier builder every row beyond the last window fully covered by the samples
is entirely zero.  For the Goertzel builder the final *partial* window also
produces a (possibly nonzero) row — see the counterexample — and only the
rows beyond `⌈len/window_size⌉` chunks are guaranteed zero. -/
theorem c4_spectrogram_shape (r2c : List ℝ → List ℂ) (source : FftSource)
    (config : FftConfig) (hres : 0 < config.resolution_hz)
    (hne : source.data ≠ [])
    (hws : windowSize source.sample_rate config.resolution_hz ≠ 0) :
    (∃ img, build_spectrum_fft r2c source config = some img ∧
      img.data.length = img.width * img.height ∧
      (∀ b ∈ img.data, b ≤ 255) ∧
      (∀ i, (source.data.length /
          windowSize source.sample_rate config.resolution_hz) * img.width ≤ i →
        img.data.getD i 0 = 0)) ∧
    (∃ img, build_spectrum_goertzel source config = some img ∧
      img.data.length = img.width * img.height ∧
      (∀ b ∈ img.data, b ≤ 255) ∧
      (∀ i, ((source.data.length +
            windowSize source.sample_rate config.resolution_hz - 1) /
          windowSize source.sample_rate config.resolution_hz) * img.width ≤ i →
        img.data.getD i 0 = 0)) :=
  ⟨build_fft_shape r2c source config hws, build_goertzel_shape source config hws⟩

theorem c4_witness :
    (∃ img, build_spectrum_fft (fun _ => []) ⟨"", 48000, [1]⟩
        ⟨50, 1, Algorithm.Fft⟩ = some img ∧
      img.data.length = img.width * img.height ∧
      (∀ b ∈ img.data, b ≤ 255) ∧
      (∀ i, (([1] : List ℝ).length / windowSize 48000 50) * img.width ≤ i →
        img.data.getD i 0 = 0)) ∧
    (∃ img, build_spectrum_goertzel ⟨"", 48000, [1]⟩
        ⟨50, 1, Algorithm.Fft⟩ = some img ∧
      img.data.length = img.width * img.height ∧
      (∀ b ∈ img.data, b ≤ 255) ∧
      (∀ i, ((([1] : List ℝ).length + windowSize 48000 50 - 1) /
          windowSize 48000 50) * img.width ≤ i →
        img.data.getD i 0 = 0)) :=
  c4_spectrogram_shape (fun _ => []) ⟨"", 48000, [1]⟩ ⟨50, 1, Algorithm.Fft⟩
    (by norm_num) (by simp)
    (by unfold windowSize
        push_cast
        rw [show ⌊(48000 : ℚ) / 50⌋ = 960 by norm_num]
        norm_num)

theorem mag_single (c : ℝ) :
    ((Goertzel.mk 0 0 0 c).process 1).magnitude 2 = 1 := by
  have hstate : (Goertzel.mk 0 0 0 c).process 1 = Goertzel.mk 1 1 0 c := by
    simp only [Goertzel.process, Goertzel.mk.injEq]
    norm_num
  rw [hstate]
  show 2 * Real.sqrt ((1 : ℝ) * 1 + 0 * 0 - 1 * 0 * c) / ((2 : ℕ) : ℝ) = 1
  rw [show ((1 : ℝ) * 1 + 0 * 0 - 1 * 0 * c) = 1 by ring, Real.sqrt_one]
  norm_num

theorem mag_new_single (sr : ℕ) (fr : ℝ) :
    ((Goertzel.new sr fr).process 1).magnitude 2 = 1 :=
  mag_single (2 * Real.cos (2 * Real.pi * (fr / (sr : ℝ))))

theorem quantizeGoertzel_one : quantizeGoertzel 1 = 255 := by
  unfold quantizeGoertzel f32AsU8
  rw [Real.sqrt_one]
  norm_num

theorem windowSize_100_50 : windowSize 100 50 = 2 := by
  unfold windowSize
  push_cast
  rw [show ⌊(100 : ℚ) / 50⌋ = 2 by norm_num]
  rfl

theorem listChunks_one : listChunks ([(1 : ℝ)]) 2 = [[1]] := by
  rw [listChunks]
  simp [listChunks_nil]

/-- C4 counterexample: the claim says every row beyond the last analysis
window fully covered by the samples is entirely zero and no row is computed
from a partial window; the Goertzel builder iterates `data.chunks(window_size)`
(`main.rs:484`), which includes the final partial chunk.  With
`sample_rate = 100`, `resolution = 50` (window size `2`) and a single sample
`[1.0]`, zero windows are fully covered (`1 / 2 = 0`), yet the builder fills
row `0` from the partial one-sample window: the cell at index `2` (row 0,
column 2) is `255`, not `0`. -/
theorem c4_counterexample :
    (build_spectrum_goertzel ⟨"x", 100, [1]⟩ ⟨50, 1, Algorithm.Goertzel⟩).map
        (fun img => img.data.getD 2 0) = some 255 ∧
    ([(1 : ℝ)] : List ℝ).length / windowSize 100 50 = 0 := by
  constructor
  · simp only [build_spectrum_goertzel]
    rw [windowSize_100_50]
    rw [if_neg (by omega)]
    rw [listChunks_one]
    rw [show (100 : ℕ) * 1 / 2 = 50 by norm_num]
    rw [List.take_of_length_le (by norm_num)]
    simp only [List.foldl_cons, List.foldl_nil, goertzelRowStep]
    simp only [List.map_map]
    have hpt : ∀ k ∈ List.range 88,
        ((fun g => List.replicate 3 (quantizeGoertzel (g.magnitude 2))) ∘
          (fun g => g.process 1) ∘
          (fun key => Goertzel.new 100 (keyFrequency key))) k = [255, 255, 255] := by
      intro k _
      simp only [Function.comp]
      rw [mag_new_single, quantizeGoertzel_one]
      rfl
    rw [List.map_congr_left hpt]
    rw [List.map_const']
    simp only [List.length_range, List.nil_append]
    rw [Option.map_some']
    congr 1
  · rw [windowSize_100_50]
    simp
